import Mathlib

/-!
# Verification of the heuristic person-name extraction layer

Shallow embedding of the core of the name extraction server:
the title dictionary, the person classifier, the title span expander,
the possessive normalizer and the aggregating request handler.

Text is modelled as a list of characters (Python strings are sequences of
code points, indexed by code point).  Python string slicing, rfind, strip
and the two anchored regular expressions used by the source are embedded
explicitly.  The recognizer is an external collaborator and is modelled as
a function parameter producing a list of entity spans.
-/

namespace NameServer

/-- A Python string, as a sequence of code points. -/
abbrev Str := List Char

/-- The ASCII apostrophe, written by code point to match the source regexes. -/
def apos : Char := Char.ofNat 39

/-- The Unicode right single quotation mark (U+2019) used in possessives. -/
def rsquo : Char := Char.ofNat 8217

/-- Convert a Lean string literal to the character-list model. -/
def str (s : String) : Str := s.toList

/-- `TITLES`: the fixed set of lowercase honorific tokens. -/
def TITLES : List Str :=
  [str "mr", str "mrs", str "ms", str "dr", str "prof", str "sir", str "dame",
   str "lord", str "lady", str "rev", str "sgt", str "cpl", str "lt", str "capt",
   str "maj", str "col", str "gen", str "cmdr", str "supt", str "det", str "insp",
   str "judge", str "justice", str "baron", str "baroness", str "prince",
   str "princess", str "king", str "queen", str "president", str "senator",
   str "governor", str "mayor", str "councillor", str "minister", str "secretary",
   str "cardinal", str "archbishop", str "bishop", str "father", str "sister",
   str "brother", str "sheikh", str "imam", str "rabbi", str "ayatollah"]

/-- Python `s.lstrip()`: drop leading whitespace. -/
def lstrip (s : Str) : Str := s.dropWhile Char.isWhitespace

/-- Python `s.rstrip()`: drop trailing whitespace. -/
def rstrip (s : Str) : Str := (s.reverse.dropWhile Char.isWhitespace).reverse

/-- Python `s.strip()`: drop leading and trailing whitespace. -/
def strip (s : Str) : Str := lstrip (rstrip s)

/-- The punctuation characters stripped from a preceding word: `. , ; :`. -/
def punctChars : List Char := [Char.ofNat 46, Char.ofNat 44, Char.ofNat 59, Char.ofNat 58]

/-- Python `s.rstrip(".,;:")`: drop trailing characters among `. , ; :`. -/
def rstripPunct (s : Str) : Str :=
  (s.reverse.dropWhile (fun c => decide (c ∈ punctChars))).reverse

/-- The maximal contiguous run of non-whitespace characters at the end of a
string: the match of the anchored regex for one or more non-whitespace
characters at end of input (empty when the string ends in whitespace). -/
def lastToken (s : Str) : Str :=
  (s.reverse.takeWhile (fun c => !c.isWhitespace)).reverse

/-- Python `s.lower()` on the characters of the model. -/
def lower (s : Str) : Str := s.map Char.toLower

/-- `preceding_word(text, start)`: the word immediately before position
`start`, taken from the right-stripped prefix, with trailing `.,;:`
stripped; empty when there is no such word. -/
def preceding_word (text : Str) (start : Nat) : Str :=
  rstripPunct (lastToken (rstrip (text.take start)))

/-- Python `s.rfind(pat)`: the greatest index at which `pat` occurs as a
substring of `s`, or `-1` when it does not occur. -/
def rfind (s pat : Str) : Int :=
  match ((List.range (s.length - pat.length + 1)).reverse).find?
      (fun i => decide ((s.drop i).take pat.length = pat)) with
  | some i => (i : Int)
  | none => -1

/-- Does the string end with an apostrophe-s or right-single-quote-s
marker at its very end? -/
def possAtEnd (s : Str) : Bool :=
  s.reverse.take 2 = ['s', apos] || s.reverse.take 2 = ['s', rsquo]

/-- Does a possessive marker stand just before one final newline?  The end
anchor of the possessive regexes also matches there. -/
def possBeforeNl (s : Str) : Bool :=
  s.reverse.take 3 = [Char.ofNat 10, 's', apos] ||
  s.reverse.take 3 = [Char.ofNat 10, 's', rsquo]

/-- The anchored possessive regex finds a match: a trailing marker, at the
end or just before one final newline. -/
def endsWithPoss (s : Str) : Bool := possAtEnd s || possBeforeNl s

/-- Does the string start with a possessive marker? -/
def startsWithPoss (s : Str) : Bool :=
  s.take 2 = [rsquo, 's'] || s.take 2 = [apos, 's']

/-- `has_possessive(ent_text, text, end)`: the entity text ends in a
possessive marker, or the text immediately after offset `e` starts with
one. -/
def has_possessive (ent_text : Str) (text : Str) (e : Nat) : Bool :=
  endsWithPoss ent_text || startsWithPoss (text.drop e)

/-- An entity span produced by the external recognizer. -/
structure Ent where
  text : Str
  label : String
  start_char : Nat
  end_char : Nat
deriving DecidableEq, Repr

/-- The labels that block the possessive heuristic. -/
def nonPersonLabels : List String := ["ORG", "GPE", "FAC", "NORP", "EVENT"]

/-- `is_likely_person(ent, text)`: the person classifier. -/
def is_likely_person (ent : Ent) (text : Str) : Bool :=
  if ent.label = "PERSON" then true
  else
    let name := strip ent.text
    if name = [] then false
    else if lower (preceding_word text ent.start_char) ∈ TITLES then true
    else if has_possessive ent.text text ent.end_char
            && !(decide (ent.label ∈ nonPersonLabels)) then true
    else false

/-- `expand_with_title(text, start)`: if the word before `start` is a title,
the position where that title starts (via `rfind` on the right-stripped
prefix), else `start` unchanged. -/
def expand_with_title (text : Str) (start : Nat) : Int :=
  let prev := preceding_word text start
  if lower prev ∈ TITLES then rfind (rstrip (text.take start)) prev
  else (start : Int)

/-- Clamp a (possibly negative) Python slice index for a string of length
`n` to an absolute position: negative indices count from the end. -/
def pyIdx (n : Nat) (i : Int) : Nat :=
  if i < 0 then ((n : Int) + i).toNat else min i.toNat n

/-- Python slicing `s[a:b]` with integer (possibly negative) endpoints. -/
def pySlice (s : Str) (a b : Int) : Str :=
  (s.take (pyIdx s.length b)).drop (pyIdx s.length a)

/-- The substitution of the anchored possessive regex by the empty string:
removes one trailing possessive marker, also when it stands just before a
final newline (the end anchor of the regex also matches there). -/
def pySubPossEnd (s : Str) : Str :=
  if possAtEnd s then s.take (s.length - 2)
  else if possBeforeNl s then s.take (s.length - 3) ++ [Char.ofNat 10]
  else s

/-- The possessive normalizer as applied to a display name: remove one
trailing possessive marker, then strip surrounding whitespace. -/
def normalizePossessive (s : Str) : Str := strip (pySubPossEnd s)

/-- One grouped result: a normalized name with every offset pair at which
it was found. -/
structure PersonRecord where
  name : Str
  positions : List (Int × Int)
deriving DecidableEq, Repr

/-- The body of the handler loop for one entity: skip it, or record its
expanded span under its normalized name. -/
def addEnt (text : Str) (recs : List PersonRecord) (ent : Ent) : List PersonRecord :=
  if !is_likely_person ent text then recs
  else
    let start : Int := expand_with_title text ent.start_char
    let e : Int := (ent.end_char : Int)
    let name := normalizePossessive (strip (pySlice text start e))
    if name = [] then recs
    else if recs.any (fun r => decide (r.name = name)) then
      recs.map (fun r =>
        if r.name = name then { r with positions := r.positions ++ [(start, e)] } else r)
    else recs ++ [{ name := name, positions := [(start, e)] }]

/-- `extract_names`: the request handler on already-parsed text, with the
external recognizer passed as a collaborator function. -/
def extract_names (recognize : Str → List Ent) (text : Str) : List PersonRecord :=
  if strip text = [] then []
  else (recognize text).foldl (addEnt text) []

/-- The expanded start offset recorded for an entity. -/
def entStart (text : Str) (ent : Ent) : Int := expand_with_title text ent.start_char

/-- The raw extracted text of an entity: the (expanded) slice of the input
text, stripped of surrounding whitespace. -/
def rawText (text : Str) (ent : Ent) : Str :=
  strip (pySlice text (entStart text ent) (ent.end_char : Int))

/-- The final normalized display name an entity contributes. -/
def entKey (text : Str) (ent : Ent) : Str := normalizePossessive (rawText text ent)

/-- The offset pair recorded for an entity: expanded start, original end. -/
def entPos (text : Str) (ent : Ent) : Int × Int := (entStart text ent, (ent.end_char : Int))

/-- An entity contributes an entry to the response when the classifier
accepts it and its normalized name is non-empty. -/
def acceptedEnt (text : Str) (ent : Ent) : Bool :=
  is_likely_person ent text && !(decide (entKey text ent = []))

/-- Keep only the first occurrence of each element, in first-seen order. -/
def dedupFirst (l : List Str) : List Str :=
  l.foldl (fun acc k => if k ∈ acc then acc else acc ++ [k]) []

/-- The normalized names contributed by a list of entities, one per
contributing entity, in encounter order. -/
def keysOf (text : Str) (l : List Ent) : List Str :=
  (l.filter (acceptedEnt text)).map (entKey text)

/-- The offset pairs contributed under one normalized name by a list of
entities, in encounter order. -/
def posOf (text : Str) (l : List Ent) (k : Str) : List (Int × Int) :=
  ((l.filter (acceptedEnt text)).filter (fun e => decide (entKey text e = k))).map (entPos text)

/-- The aggregation contract in the words of the specification: one record
per distinct normalized name, records in first-seen order of names, and
each record listing the offset pairs of that name's occurrences in
encounter order.  Stated independently of the handler loop, for
comparison with it. -/
def aggregateSpec (text : Str) (l : List Ent) : List PersonRecord :=
  (dedupFirst (keysOf text l)).map (fun k => { name := k, positions := posOf text l k })

/-- The start position of the maximal non-whitespace token adjacent to (and
left of) position `start`, inside the right-stripped prefix. -/
def adjacentTokenStart (text : Str) (start : Nat) : Nat :=
  (rstrip (text.take start)).length - (lastToken (rstrip (text.take start))).length

/-- The person-classifier contract in the literal words of the
specification claim: label PERSON; or, for non-PERSON labels with
non-blank entity text, a preceding title word; or possessive marking
together with a label outside the non-person label set. -/
def personClaimLiteral (ent : Ent) (text : Str) : Prop :=
  ent.label = "PERSON" ∨
  (ent.label ≠ "PERSON" ∧ strip ent.text ≠ [] ∧
    lower (preceding_word text ent.start_char) ∈ TITLES) ∨
  (has_possessive ent.text text ent.end_char = true ∧ ent.label ∉ nonPersonLabels)

instance (ent : Ent) (text : Str) : Decidable (personClaimLiteral ent text) := by
  unfold personClaimLiteral
  exact inferInstance

/-- Example input text used to instantiate the general theorems. -/
def exText : Str := str "Prince Philip died."

/-- Example recognizer entity: a span mislabelled GPE after a title. -/
def exEnt : Ent := { text := str "Philip", label := "GPE", start_char := 7, end_char := 13 }

/-- Example recognizer producing the single entity above. -/
def exRecognize : Str → List Ent := fun _ => [exEnt]

/-- Example input text with a possessive marker after the name. -/
def exPossText : Str := str "Ann" ++ [rsquo, 's'] ++ str " legacy"

/-- Example PERSON entity whose span includes the possessive marker. -/
def exPossEnt : Ent :=
  { text := str "Ann" ++ [rsquo, 's'], label := "PERSON", start_char := 0, end_char := 5 }

/-- Example recognizer producing the possessive entity above. -/
def exPossRecognize : Str → List Ent := fun _ => [exPossEnt]

/-- A non-PERSON entity whose own text is whitespace-only, standing right
before a possessive marker. -/
def cexEnt : Ent := { text := [' '], label := "WORK_OF_ART", start_char := 0, end_char := 1 }

/-- The surrounding text for the entity above: a space followed by an
apostrophe-s. -/
def cexText : Str := [' ', apos, 's']

/-! ## Structural lemmas about the string helpers -/

theorem lastToken_append (b : Str) :
    (b.reverse.dropWhile (fun c => !c.isWhitespace)).reverse ++ lastToken b = b := by
  rw [lastToken, ← List.reverse_append, List.takeWhile_append_dropWhile, List.reverse_reverse]

theorem rstripPunct_append (w : Str) :
    rstripPunct w ++ (w.reverse.takeWhile (fun c => decide (c ∈ punctChars))).reverse = w := by
  rw [rstripPunct, ← List.reverse_append, List.takeWhile_append_dropWhile, List.reverse_reverse]

theorem mem_punctTail {w : Str} {c : Char}
    (h : c ∈ (w.reverse.takeWhile (fun c => decide (c ∈ punctChars))).reverse) :
    c ∈ punctChars := by
  rw [List.mem_reverse] at h
  simpa using List.mem_takeWhile_imp h

theorem rstripPunct_getLast {w : Str} (h : rstripPunct w ≠ []) :
    (rstripPunct w).getLast h ∉ punctChars := by
  have h2 : (w.reverse.dropWhile (fun c => decide (c ∈ punctChars))) ≠ [] := by
    simpa [rstripPunct] using h
  have hfalse := List.head_dropWhile_not (fun c => decide (c ∈ punctChars)) w.reverse h2
  intro hmem
  have heq : (rstripPunct w).getLast h =
      ((w.reverse.dropWhile (fun c => decide (c ∈ punctChars))).head h2) := by
    simp only [rstripPunct]
    exact List.getLast_reverse _
  rw [heq] at hmem
  simp_all

theorem length_rstrip_le (s : Str) : (rstrip s).length ≤ s.length := by
  rw [rstrip]
  have h : (s.reverse.dropWhile Char.isWhitespace).length ≤ s.reverse.length :=
    List.Sublist.length_le (List.dropWhile_sublist _)
  simpa using h

theorem lastToken_length_le (b : Str) : (lastToken b).length ≤ b.length := by
  conv_rhs => rw [← lastToken_append b]
  simp

theorem title_ne_nil {s : Str} (h : lower s ∈ TITLES) : s ≠ [] := by
  intro h0
  subst h0
  revert h
  decide

/-! ## Characterization of rfind -/

theorem find?_reverse_range {p : Nat → Bool} {k : Nat} :
    ∀ n : Nat, k < n → p k = true → (∀ j, k < j → j < n → p j = false) →
      ((List.range n).reverse).find? p = some k := by
  intro n
  induction n with
  | zero => intro h; omega
  | succ n ih =>
    intro hk hpk hmax
    rw [List.range_succ, List.reverse_append]
    by_cases hkn : k = n
    · subst hkn
      simpa using List.find?_cons_of_pos _ hpk
    · have hk' : k < n := by omega
      have hpn : p n = false := hmax n hk' (by omega)
      have htail := ih hk' hpk (fun j hj hjn => hmax j hj (by omega))
      simpa [hpn] using htail

theorem rfind_eq {s pat : Str} {k : Nat}
    (hlen : k + pat.length ≤ s.length)
    (hmatch : (s.drop k).take pat.length = pat)
    (hmax : ∀ j, k < j → (s.drop j).take pat.length ≠ pat) :
    rfind s pat = (k : Int) := by
  rw [rfind]
  have h1 : ((List.range (s.length - pat.length + 1)).reverse).find?
      (fun i => decide ((s.drop i).take pat.length = pat)) = some k := by
    apply find?_reverse_range
    · omega
    · simpa using hmatch
    · intro j hj _
      simpa using hmax j hj
  rw [h1]

theorem rfind_lastToken_adjacent (b : Str) (hne : rstripPunct (lastToken b) ≠ []) :
    rfind b (rstripPunct (lastToken b)) = ((b.length - (lastToken b).length : Nat) : Int) := by
  have hb : (b.reverse.dropWhile (fun c => !c.isWhitespace)).reverse ++ lastToken b = b :=
    lastToken_append b
  have hwp : rstripPunct (lastToken b) ++
      ((lastToken b).reverse.takeWhile (fun c => decide (c ∈ punctChars))).reverse = lastToken b :=
    rstripPunct_append (lastToken b)
  set w := lastToken b with hw
  set prev := rstripPunct w with hprev
  set u := (b.reverse.dropWhile (fun c => !c.isWhitespace)).reverse with hu
  set p := (w.reverse.takeWhile (fun c => decide (c ∈ punctChars))).reverse with hp
  have hul : u.length + w.length = b.length := by
    conv_rhs => rw [← hb]
    simp
  have hpl : prev.length + p.length = w.length := by
    conv_rhs => rw [← hwp]
    simp
  have hklen : b.length - w.length = u.length := by omega
  have hpne : 0 < prev.length := List.length_pos.mpr hne
  rw [hklen]
  apply rfind_eq
  · omega
  · rw [← hb, List.drop_left, ← hwp, List.take_left]
  · intro j hj hcontra
    have hjlen : prev.length ≤ b.length - j := by
      have hlc := congrArg List.length hcontra
      simp at hlc
      omega
    have hm : j + (prev.length - 1) < b.length := by omega
    have hmid : prev.length - 1 < (b.drop j).length := by
      simp
      omega
    have hpidx : prev.length - 1 < prev.length := by omega
    have htb : prev.length - 1 < ((b.drop j).take prev.length).length := by
      rw [hcontra]
      omega
    have e1 : prev[prev.length - 1] = b[j + (prev.length - 1)] := by
      have s1 : prev[prev.length - 1] =
          ((b.drop j).take prev.length)[prev.length - 1] :=
        List.getElem_of_eq hcontra.symm hpidx
      rw [s1, List.getElem_take]
      exact List.getElem_drop b
    have hsplit : (u ++ prev) ++ p = b := by
      rw [List.append_assoc, hwp, hb]
    have hab : j + (prev.length - 1) < ((u ++ prev) ++ p).length := by
      rw [hsplit]
      exact hm
    have e2 : b[j + (prev.length - 1)] ∈ p := by
      have hlen2 : (u ++ prev).length ≤ j + (prev.length - 1) := by
        simp
        omega
      have e3 : b[j + (prev.length - 1)] =
          ((u ++ prev) ++ p)[j + (prev.length - 1)] :=
        List.getElem_of_eq hsplit.symm hm
      rw [e3, List.getElem_append_right hlen2]
      exact List.getElem_mem _
    have e4 : prev[prev.length - 1] = prev.getLast hne := by
      rw [List.getLast_eq_getElem]
    have e5 : prev.getLast hne ∈ punctChars := by
      rw [← e4, e1]
      exact mem_punctTail e2
    exact rstripPunct_getLast hne e5

theorem expand_with_title_title (text : Str) (start : Nat)
    (h : lower (preceding_word text start) ∈ TITLES) :
    expand_with_title text start = (adjacentTokenStart text start : Int) := by
  have hne : preceding_word text start ≠ [] := title_ne_nil h
  show (if lower (preceding_word text start) ∈ TITLES
        then rfind (rstrip (text.take start)) (preceding_word text start)
        else (start : Int)) = _
  rw [if_pos h]
  exact rfind_lastToken_adjacent (rstrip (text.take start)) hne

theorem expand_with_title_notitle (text : Str) (start : Nat)
    (h : lower (preceding_word text start) ∉ TITLES) :
    expand_with_title text start = (start : Int) := by
  show (if lower (preceding_word text start) ∈ TITLES
        then rfind (rstrip (text.take start)) (preceding_word text start)
        else (start : Int)) = _
  rw [if_neg h]

theorem adjacentTokenStart_le (text : Str) (start : Nat) :
    adjacentTokenStart text start ≤ start := by
  unfold adjacentTokenStart
  have h1 := length_rstrip_le (text.take start)
  have h2 : (text.take start).length ≤ start := by
    rw [List.length_take]
    omega
  omega

theorem expand_with_title_bounds (text : Str) (start : Nat) :
    0 ≤ expand_with_title text start ∧ expand_with_title text start ≤ (start : Int) := by
  by_cases h : lower (preceding_word text start) ∈ TITLES
  · rw [expand_with_title_title text start h]
    refine ⟨Int.ofNat_nonneg _, ?_⟩
    exact_mod_cast adjacentTokenStart_le text start
  · rw [expand_with_title_notitle text start h]
    exact ⟨Int.ofNat_nonneg _, le_refl _⟩

/-! ## Lemmas about first-seen deduplication -/

theorem mem_foldl_dedup (l : List Str) :
    ∀ (acc : List Str) (x : Str),
      (x ∈ l.foldl (fun acc k => if k ∈ acc then acc else acc ++ [k]) acc ↔ x ∈ acc ∨ x ∈ l) := by
  induction l with
  | nil => intro acc x; simp
  | cons a l ih =>
    intro acc x
    rw [List.foldl_cons]
    by_cases ha : a ∈ acc
    · rw [if_pos ha, ih]
      simp only [List.mem_cons]
      constructor
      · rintro (h | h)
        · exact Or.inl h
        · exact Or.inr (Or.inr h)
      · rintro (h | h | h)
        · exact Or.inl h
        · exact Or.inl (h ▸ ha)
        · exact Or.inr h
    · rw [if_neg ha, ih]
      simp only [List.mem_append, List.mem_singleton, List.mem_cons]
      tauto

theorem mem_dedupFirst {l : List Str} {x : Str} : x ∈ dedupFirst l ↔ x ∈ l := by
  rw [dedupFirst, mem_foldl_dedup]
  simp

theorem nodup_foldl_dedup (l : List Str) :
    ∀ acc : List Str, acc.Nodup →
      (l.foldl (fun acc k => if k ∈ acc then acc else acc ++ [k]) acc).Nodup := by
  induction l with
  | nil => intro acc h; simpa using h
  | cons a l ih =>
    intro acc hacc
    rw [List.foldl_cons]
    by_cases ha : a ∈ acc
    · rw [if_pos ha]; exact ih acc hacc
    · rw [if_neg ha]
      apply ih
      rw [← List.concat_eq_append]
      exact List.Nodup.concat ha hacc

theorem nodup_dedupFirst (l : List Str) : (dedupFirst l).Nodup :=
  nodup_foldl_dedup l [] List.nodup_nil

theorem dedupFirst_append (l : List Str) (k : Str) :
    dedupFirst (l ++ [k]) =
      if k ∈ dedupFirst l then dedupFirst l else dedupFirst l ++ [k] := by
  rw [dedupFirst, List.foldl_append, List.foldl_cons, List.foldl_nil]
  rfl

/-! ## Lemmas about the handler loop body -/

theorem keysOf_append (text : Str) (l : List Ent) (e : Ent) :
    keysOf text (l ++ [e]) =
      keysOf text l ++ (if acceptedEnt text e then [entKey text e] else []) := by
  rw [keysOf, List.filter_append]
  by_cases he : acceptedEnt text e
  · simp [keysOf, he]
  · simp [keysOf, he]

theorem posOf_append (text : Str) (l : List Ent) (e : Ent) (k : Str) :
    posOf text (l ++ [e]) k =
      posOf text l k ++
        (if acceptedEnt text e ∧ entKey text e = k then [entPos text e] else []) := by
  rw [posOf, List.filter_append, List.filter_append]
  by_cases he : acceptedEnt text e
  · by_cases hk : entKey text e = k
    · simp [posOf, he, hk]
    · simp [posOf, he, hk]
  · simp [posOf, he]

theorem posOf_eq_nil_of_not_mem (text : Str) (l : List Ent) (k : Str)
    (h : k ∉ keysOf text l) :
    posOf text l k = [] := by
  rw [posOf]
  have hf : (l.filter (acceptedEnt text)).filter (fun e => decide (entKey text e = k)) = [] := by
    rw [List.filter_eq_nil_iff]
    intro e he
    simp only [decide_eq_true_eq]
    intro hk
    exact h (by rw [keysOf, ← hk]; exact List.mem_map_of_mem _ he)
  rw [hf, List.map_nil]

theorem pySubPossEnd_of_poss {s : Str} (h : possAtEnd s = true) :
    pySubPossEnd s = s.take (s.length - 2) := by
  unfold pySubPossEnd
  rw [if_pos h]

theorem addEnt_eq (text : Str) (recs : List PersonRecord) (ent : Ent) :
    addEnt text recs ent =
      if acceptedEnt text ent then
        (if recs.any (fun r => decide (r.name = entKey text ent)) then
          recs.map (fun r => if r.name = entKey text ent then
            { r with positions := r.positions ++ [entPos text ent] } else r)
        else recs ++ [{ name := entKey text ent, positions := [entPos text ent] }])
      else recs := by
  simp only [addEnt, acceptedEnt, entKey, rawText, entStart, entPos]
  by_cases hp : is_likely_person ent text
  · simp only [hp, Bool.not_true, Bool.false_eq_true, if_false, Bool.true_and]
    by_cases hk : normalizePossessive
        (strip (pySlice text (expand_with_title text ent.start_char) ((ent.end_char : Int)))) = []
    · simp [hk]
    · simp [hk]
  · simp [hp]

theorem aggregate_any_name (text : Str) (l : List Ent) (k : Str) :
    ((aggregateSpec text l).any (fun r => decide (r.name = k)) = true) ↔
      k ∈ dedupFirst (keysOf text l) := by
  rw [aggregateSpec, List.any_eq_true]
  constructor
  · rintro ⟨r, hr, hh⟩
    simp only [decide_eq_true_eq] at hh
    rw [List.mem_map] at hr
    obtain ⟨k0, hk0, rfl⟩ := hr
    simp only at hh
    exact hh ▸ hk0
  · intro hmem
    exact ⟨{ name := k, positions := posOf text l k }, List.mem_map_of_mem _ hmem, by simp⟩

theorem foldl_addEnt_eq_aggregate (text : Str) (l : List Ent) :
    l.foldl (addEnt text) [] = aggregateSpec text l := by
  induction l using List.reverseRecOn with
  | nil => rfl
  | append_singleton l e ih =>
    rw [List.foldl_append, List.foldl_cons, List.foldl_nil, ih, addEnt_eq]
    by_cases he : acceptedEnt text e
    · rw [if_pos he]
      by_cases hk : entKey text e ∈ dedupFirst (keysOf text l)
      · rw [if_pos ((aggregate_any_name text l (entKey text e)).mpr hk)]
        rw [aggregateSpec, aggregateSpec, List.map_map]
        rw [keysOf_append, if_pos he, dedupFirst_append, if_pos hk]
        apply List.map_congr_left
        intro k0 hk0
        simp only [Function.comp_apply]
        rw [posOf_append]
        by_cases hc : k0 = entKey text e
        · simp [hc, he]
        · have hc2 : ¬(entKey text e = k0) := fun h2 => hc h2.symm
          simp [hc, hc2, he]
      · rw [if_neg (by
          intro hcon
          exact hk ((aggregate_any_name text l (entKey text e)).mp hcon))]
        rw [aggregateSpec, aggregateSpec]
        rw [keysOf_append, if_pos he, dedupFirst_append, if_neg hk, List.map_append]
        congr 1
        · apply List.map_congr_left
          intro k0 hk0
          rw [posOf_append]
          have hne : ¬(acceptedEnt text e = true ∧ entKey text e = k0) := by
            rintro ⟨-, hkk⟩
            exact hk (hkk ▸ hk0)
          rw [if_neg hne, List.append_nil]
        · rw [List.map_singleton]
          have hnil : posOf text l (entKey text e) = [] :=
            posOf_eq_nil_of_not_mem text l (entKey text e)
              (fun hmem => hk (mem_dedupFirst.mpr hmem))
          rw [posOf_append, hnil, if_pos ⟨he, rfl⟩, List.nil_append]
    · rw [if_neg he]
      rw [aggregateSpec, aggregateSpec, keysOf_append, if_neg he, List.append_nil]
      apply List.map_congr_left
      intro k0 hk0
      rw [posOf_append, if_neg (by rintro ⟨hcon, -⟩; exact he hcon), List.append_nil]

/-! ## Claim theorems -/

/-- C1, counterexample: the claim as stated fails on an entity with
whitespace-only text followed by a possessive marker — the classifier
returns false there, while the claimed characterization (whose non-blank
text guard covers only the title disjunct) is satisfied. -/
theorem is_person_claim_counterexample :
    ¬(is_likely_person cexEnt cexText = true ↔ personClaimLiteral cexEnt cexText) := by
  decide

/-- C1, amended: `is_likely_person` returns true exactly when the label is
PERSON, or — for non-PERSON labels with non-empty, non-whitespace-only
entity text — the lowercased punctuation-stripped preceding word is a
title, or the possessive test holds and the label is outside
{ORG, GPE, FAC, NORP, EVENT}; the non-blank text guard covers the
possessive disjunct as well. -/
theorem is_person_characterization (ent : Ent) (text : Str) :
    is_likely_person ent text = true ↔
      (ent.label = "PERSON" ∨
       (ent.label ≠ "PERSON" ∧ strip ent.text ≠ [] ∧
         lower (preceding_word text ent.start_char) ∈ TITLES) ∨
       (ent.label ≠ "PERSON" ∧ strip ent.text ≠ [] ∧
         has_possessive ent.text text ent.end_char = true ∧
         ent.label ∉ nonPersonLabels)) := by
  by_cases h1 : ent.label = "PERSON"
  · simp [is_likely_person, h1]
  · by_cases h2 : strip ent.text = []
    · simp [is_likely_person, h1, h2]
    · by_cases h3 : lower (preceding_word text ent.start_char) ∈ TITLES
      · simp [is_likely_person, h1, h2, h3]
      · by_cases h4 : has_possessive ent.text text ent.end_char = true
        · by_cases h5 : ent.label ∈ nonPersonLabels
          · simp [is_likely_person, h1, h2, h3, h4, h5]
          · simp [is_likely_person, h1, h2, h3, h4, h5]
        · simp [is_likely_person, h1, h2, h3, h4]

/-- C2: when the word before `start` (trailing punctuation stripped,
lowercased) is a title, `expand_with_title` returns the rightmost
occurrence of that word in the whitespace-trimmed prefix, and that
occurrence is exactly the start of the adjacent preceding token; when it
is not a title, `start` is returned unchanged. -/
theorem expand_start_spec (text : Str) (start : Nat) :
    (lower (preceding_word text start) ∈ TITLES →
      expand_with_title text start =
          rfind (rstrip (text.take start)) (preceding_word text start) ∧
        rfind (rstrip (text.take start)) (preceding_word text start) =
          ((adjacentTokenStart text start : Nat) : Int)) ∧
    (lower (preceding_word text start) ∉ TITLES →
      expand_with_title text start = (start : Int)) := by
  constructor
  · intro h
    constructor
    · show (if lower (preceding_word text start) ∈ TITLES
            then rfind (rstrip (text.take start)) (preceding_word text start)
            else (start : Int)) = _
      rw [if_pos h]
    · exact rfind_lastToken_adjacent (rstrip (text.take start)) (title_ne_nil h)
  · exact expand_with_title_notitle text start

/-- Witness for C2 at concrete inputs: a title case and a non-title case. -/
theorem expand_start_spec_witness :
    (expand_with_title (str "Dr. Smith") 4 =
        rfind (rstrip ((str "Dr. Smith").take 4)) (preceding_word (str "Dr. Smith") 4) ∧
      rfind (rstrip ((str "Dr. Smith").take 4)) (preceding_word (str "Dr. Smith") 4) =
        ((adjacentTokenStart (str "Dr. Smith") 4 : Nat) : Int)) ∧
    expand_with_title (str "He ran") 3 = ((3 : Nat) : Int) :=
  ⟨(expand_start_spec (str "Dr. Smith") 4).1 (by decide),
   (expand_start_spec (str "He ran") 3).2 (by decide)⟩

/-- C8: for positions inside the text, expansion never returns a negative
index and never moves the span start forward; in the title case the
`rfind` fallback value `-1` is unreachable. -/
theorem expand_start_safe (text : Str) (start : Nat) (_h : start ≤ text.length) :
    0 ≤ expand_with_title text start ∧ expand_with_title text start ≤ (start : Int) ∧
      (lower (preceding_word text start) ∈ TITLES →
        rfind (rstrip (text.take start)) (preceding_word text start) ≠ -1) := by
  refine ⟨(expand_with_title_bounds text start).1, (expand_with_title_bounds text start).2, ?_⟩
  intro ht
  rw [((expand_start_spec text start).1 ht).2]
  intro hcon
  omega

/-- Witness for C8 at a concrete title-expansion input. -/
theorem expand_start_safe_witness :
    0 ≤ expand_with_title (str "Dr. Smith") 4 ∧
      expand_with_title (str "Dr. Smith") 4 ≤ ((4 : Nat) : Int) ∧
      (lower (preceding_word (str "Dr. Smith") 4) ∈ TITLES →
        rfind (rstrip ((str "Dr. Smith").take 4)) (preceding_word (str "Dr. Smith") 4) ≠ -1) :=
  expand_start_safe (str "Dr. Smith") 4 (by decide)

/-- C3: the extraction result has at most one record per distinct
normalized name, and (on non-blank text) equals the specification
aggregate: records keyed by normalized name in first-seen order, each
listing that name's occurrences in encounter order. -/
theorem extract_names_aggregation (recognize : Str → List Ent) (text : Str) :
    ((extract_names recognize text).map PersonRecord.name).Nodup ∧
    (strip text ≠ [] →
      extract_names recognize text = aggregateSpec text (recognize text)) := by
  constructor
  · rw [extract_names]
    by_cases h : strip text = []
    · simp [h]
    · rw [if_neg h, foldl_addEnt_eq_aggregate, aggregateSpec, List.map_map]
      have hid : (PersonRecord.name ∘ fun k =>
          ({ name := k, positions := posOf text (recognize text) k } : PersonRecord)) = id := by
        funext k
        rfl
      rw [hid, List.map_id]
      exact nodup_dedupFirst _
  · intro h
    rw [extract_names, if_neg h, foldl_addEnt_eq_aggregate]

/-- Witness for C3 at a concrete recognizer and text. -/
theorem extract_names_aggregation_witness :
    ((extract_names exRecognize exText).map PersonRecord.name).Nodup ∧
      extract_names exRecognize exText = aggregateSpec exText (exRecognize exText) :=
  ⟨(extract_names_aggregation exRecognize exText).1,
   (extract_names_aggregation exRecognize exText).2 (by decide)⟩

/-- C4: under the collaborator contract on entity offsets, every recorded
position satisfies `0 ≤ start < end ≤ length text`, with `end` the
entity's original end offset and `start` its expanded start. -/
theorem extract_positions_bounds (recognize : Str → List Ent) (text : Str)
    (hc : ∀ ent ∈ recognize text,
      ent.start_char < ent.end_char ∧ ent.end_char ≤ text.length) :
    ∀ r ∈ extract_names recognize text, ∀ q ∈ r.positions,
      0 ≤ q.1 ∧ q.1 < q.2 ∧ q.2 ≤ (text.length : Int) ∧
      ∃ ent ∈ recognize text, q.1 = entStart text ent ∧ q.2 = (ent.end_char : Int) := by
  intro r hr q hq
  rw [extract_names] at hr
  by_cases h : strip text = []
  · rw [if_pos h] at hr
    simp at hr
  · rw [if_neg h, foldl_addEnt_eq_aggregate, aggregateSpec, List.mem_map] at hr
    obtain ⟨k, hk, rfl⟩ := hr
    simp only at hq
    rw [posOf, List.mem_map] at hq
    obtain ⟨ent, hent, rfl⟩ := hq
    rw [List.mem_filter] at hent
    rw [List.mem_filter] at hent
    obtain ⟨⟨hmem, -⟩, -⟩ := hent
    obtain ⟨hlt, hle⟩ := hc ent hmem
    have hb := expand_with_title_bounds text ent.start_char
    refine ⟨hb.1, ?_, ?_, ent, hmem, rfl, rfl⟩
    · show entStart text ent < (ent.end_char : Int)
      have h2 := hb.2
      rw [entStart]
      omega
    · show (ent.end_char : Int) ≤ (text.length : Int)
      omega

/-- Witness for C4: the recorded span of the title-expanded example. -/
theorem extract_positions_bounds_witness :
    0 ≤ ((0 : Int), (13 : Int)).1 ∧ ((0 : Int), (13 : Int)).1 < ((0 : Int), (13 : Int)).2 ∧
      ((0 : Int), (13 : Int)).2 ≤ ((exText).length : Int) ∧
      ∃ ent ∈ exRecognize exText,
        ((0 : Int), (13 : Int)).1 = entStart exText ent ∧
        ((0 : Int), (13 : Int)).2 = (ent.end_char : Int) :=
  extract_positions_bounds exRecognize exText (by decide)
    { name := str "Prince Philip", positions := [((0 : Int), (13 : Int))] } (by decide)
    ((0 : Int), (13 : Int)) (by decide)

/-- C5: possessive normalization affects only the display name: for an
accepted entity whose extracted text ends with a possessive marker, the
record's name is that text with the two marker characters removed and
whitespace trimmed, while the recorded position still ends at the
entity's original end offset. -/
theorem possessive_only_display (recognize : Str → List Ent) (text : Str) (ent : Ent)
    (hmem : ent ∈ recognize text) (htext : strip text ≠ [])
    (hacc : acceptedEnt text ent = true)
    (hposs : possAtEnd (rawText text ent) = true) :
    ∃ r ∈ extract_names recognize text,
      r.name = strip ((rawText text ent).take ((rawText text ent).length - 2)) ∧
      (entStart text ent, (ent.end_char : Int)) ∈ r.positions := by
  rw [extract_names, if_neg htext, foldl_addEnt_eq_aggregate]
  have hk : entKey text ent ∈ dedupFirst (keysOf text (recognize text)) := by
    rw [mem_dedupFirst, keysOf]
    exact List.mem_map_of_mem _ (List.mem_filter.mpr ⟨hmem, hacc⟩)
  have hname : entKey text ent =
      strip ((rawText text ent).take ((rawText text ent).length - 2)) := by
    rw [entKey, normalizePossessive, pySubPossEnd_of_poss hposs]
  have hpos : (entStart text ent, (ent.end_char : Int)) ∈
      posOf text (recognize text) (entKey text ent) := by
    rw [posOf, show (entStart text ent, (ent.end_char : Int)) = entPos text ent from rfl]
    exact List.mem_map_of_mem _
      (List.mem_filter.mpr ⟨List.mem_filter.mpr ⟨hmem, hacc⟩, by simp⟩)
  have hmemrec : (⟨entKey text ent, posOf text (recognize text) (entKey text ent)⟩ :
      PersonRecord) ∈ aggregateSpec text (recognize text) := by
    rw [aggregateSpec]
    exact List.mem_map_of_mem _ hk
  refine ⟨⟨entKey text ent, posOf text (recognize text) (entKey text ent)⟩, hmemrec, ?_, ?_⟩
  · with_reducible exact hname
  · with_reducible exact hpos

/-- Witness for C5: a PERSON span that includes its possessive marker. -/
theorem possessive_only_display_witness :
    ∃ r ∈ extract_names exPossRecognize exPossText,
      r.name = strip ((rawText exPossText exPossEnt).take
        ((rawText exPossText exPossEnt).length - 2)) ∧
      (entStart exPossText exPossEnt, (exPossEnt.end_char : Int)) ∈ r.positions :=
  possessive_only_display exPossRecognize exPossText exPossEnt
    (by decide) (by decide) (by decide) (by decide)

/-- C6: on empty or whitespace-only text the handler answers the empty
list, and the answer does not depend on the recognizer at all. -/
theorem extract_empty_text (recognize : Str → List Ent) (text : Str)
    (h : strip text = []) :
    extract_names recognize text = [] ∧
      ∀ recognize2 : Str → List Ent,
        extract_names recognize text = extract_names recognize2 text := by
  constructor
  · rw [extract_names, if_pos h]
  · intro recognize2
    rw [extract_names, if_pos h, extract_names, if_pos h]

/-- Witness for C6 on whitespace-only text, against two recognizers. -/
theorem extract_empty_text_witness :
    extract_names exRecognize (str "  ") = [] ∧
      extract_names exRecognize (str "  ") = extract_names (fun _ => []) (str "  ") :=
  ⟨(extract_empty_text exRecognize (str "  ") (by decide)).1,
   (extract_empty_text exRecognize (str "  ") (by decide)).2 (fun _ => [])⟩

/-- C7: the handler's output is a function of the recognized entity
sequence alone — with a deterministic recognizer, two runs on the same
text agree exactly. -/
theorem extract_deterministic (rec1 rec2 : Str → List Ent) (text : Str)
    (h : rec1 text = rec2 text) :
    extract_names rec1 text = extract_names rec2 text := by
  rw [extract_names, extract_names, h]

/-- Witness for C7 with two syntactically different recognizers agreeing
on the given text. -/
theorem extract_deterministic_witness :
    extract_names exRecognize exText = extract_names (fun _ => [exEnt]) exText :=
  extract_deterministic exRecognize (fun _ => [exEnt]) exText rfl

/-- C9: the possessive normalizer removes at most one trailing marker per
application and is therefore not idempotent: on a name ending in two
consecutive markers, applying it twice differs from applying it once. -/
theorem normalize_not_idempotent :
    normalizePossessive (str "Ann" ++ [rsquo, 's', rsquo, 's']) = str "Ann" ++ [rsquo, 's'] ∧
    normalizePossessive (normalizePossessive (str "Ann" ++ [rsquo, 's', rsquo, 's'])) ≠
      normalizePossessive (str "Ann" ++ [rsquo, 's', rsquo, 's']) := by
  decide

/-- C10: every PERSON-labelled entity is accepted with no look at its
text, yet no returned record ever carries an empty name, because the
handler drops entities whose normalized name is empty. -/
theorem person_accepted_no_empty_names :
    (∀ (ent : Ent) (text : Str), ent.label = "PERSON" →
      is_likely_person ent text = true) ∧
    (∀ (recognize : Str → List Ent) (text : Str),
      ∀ r ∈ extract_names recognize text, r.name ≠ []) := by
  constructor
  · intro ent text h
    simp [is_likely_person, h]
  · intro recognize text r hr
    rw [extract_names] at hr
    by_cases h : strip text = []
    · rw [if_pos h] at hr
      simp at hr
    · rw [if_neg h, foldl_addEnt_eq_aggregate, aggregateSpec, List.mem_map] at hr
      obtain ⟨k, hk, rfl⟩ := hr
      simp only
      rw [mem_dedupFirst, keysOf, List.mem_map] at hk
      obtain ⟨e, he, rfl⟩ := hk
      rw [List.mem_filter, acceptedEnt] at he
      have h2 := he.2
      simp only [Bool.and_eq_true, Bool.not_eq_eq_eq_not, Bool.not_true,
        decide_eq_false_iff_not] at h2
      exact h2.2

/-- Witness for C10: an empty-text PERSON entity is accepted, and the
record produced by the example extraction has a non-empty name. -/
theorem person_accepted_no_empty_names_witness :
    is_likely_person { text := [], label := "PERSON", start_char := 0, end_char := 0 } [] = true ∧
    ({ name := str "Prince Philip", positions := [((0 : Int), (13 : Int))] } : PersonRecord).name ≠ [] :=
  ⟨person_accepted_no_empty_names.1
      { text := [], label := "PERSON", start_char := 0, end_char := 0 } [] rfl,
   person_accepted_no_empty_names.2 exRecognize exText
      { name := str "Prince Philip", positions := [((0 : Int), (13 : Int))] } (by decide)⟩

end NameServer
